import Mathlib

/-!
Verification development for the `vps-state` dashboard client
(`src/frontend/src/app/page.tsx`) and the backend time-series engine its
specification describes.

The TypeScript client receives raw TCPing points
`{monitor_name, avg_delay, created_at}` from the backend, groups them into
one chart row per timestamp, merges them with the rows it already holds
(keyed by timestamp, newest write wins), sorts by timestamp, and then runs a
two-directional fill pass (back-fill of leading gaps from the first known
value, forward-fill of later gaps from the last known value).

Modelling conventions of this shallow embedding:
* instants (`created_at`) are natural numbers (the code stores
  `new Date(s).getTime()`, a millisecond count); distinct wire strings are
  assumed to denote distinct instants;
* JavaScript floating-point delay values are idealised as exact rationals;
* a JavaScript object used as a string-keyed dictionary is an association
  list in insertion order (`alookup` / `aset`), where assigning `undefined`
  to a key is observationally the identity;
* a JavaScript `Map` keyed by number is an association-style list with
  insert-or-overwrite (`mergeInsert`), overwriting in place;
* `Array.prototype.sort` with comparator `a.created_at - b.created_at` is a
  comparison sort; since merged timestamps are pairwise distinct the result
  is the unique ordering, modelled by `List.insertionSort`.
-/

namespace VpsState

/-- Raw TCPing data point as delivered by `/api/tcping/{id}`
(interface `TcpingDataPoint`, `page.tsx`). The unused `server_id`
field is omitted. -/
structure RawPoint where
  monitor_name : String
  avg_delay : ℚ
  created_at : Nat
deriving DecidableEq, Repr

/-- Chart row (interface `TransformedTcpingData`, `page.tsx`): a timestamp
plus a dictionary from monitor name to delay value. -/
structure Row where
  created_at : Nat
  values : List (String × ℚ)
deriving DecidableEq, Repr

/-- Dictionary lookup in an association list (JavaScript `obj[key]`,
`none` playing the role of `undefined`). -/
def alookup (k : String) : List (String × ℚ) → Option ℚ
  | [] => none
  | (k2, v) :: rest => if k2 = k then some v else alookup k rest

/-- Dictionary assignment `obj[key] = v`: overwrite in place if the key is
present, append otherwise. -/
def aset (k : String) (v : ℚ) : List (String × ℚ) → List (String × ℚ)
  | [] => [(k, v)]
  | (k2, v2) :: rest => if k2 = k then (k, v) :: rest else (k2, v2) :: aset k v rest

/-- First-occurrence deduplication, the observable content of
`Array.from(new Set(xs))` in insertion order. -/
def dedupFirst {α : Type} [DecidableEq α] : List α → List α
  | [] => []
  | x :: xs => x :: (dedupFirst xs).filter (fun y => y ≠ x)

/-- Monitor-name set collected from a raw response: `newMonitors` in
`page.tsx` (`rawData.forEach(... newMonitors.add(point.monitor_name))`
followed by `Array.from`). The `filter(name => name != null)` step is the
identity in this typed model. -/
def monitorsOf (raw : List RawPoint) : List String :=
  dedupFirst (raw.map (fun p => p.monitor_name))

/-- Insertion of one raw point into the `transformed` dictionary keyed by
`created_at` (`page.tsx` step 1): create the row on first sight of a
timestamp, then set the monitor field. -/
def transformInsert (acc : List Row) (p : RawPoint) : List Row :=
  if acc.any (fun r => r.created_at = p.created_at) then
    acc.map (fun r =>
      if r.created_at = p.created_at then
        { r with values := aset p.monitor_name p.avg_delay r.values }
      else r)
  else acc ++ [{ created_at := p.created_at, values := [(p.monitor_name, p.avg_delay)] }]

/-- Step 1 of the client pipeline: `rawData` grouped into one row per
timestamp (`Object.values(transformed)`, which enumerates string-keyed
properties in insertion order). -/
def transform (raw : List RawPoint) : List Row :=
  raw.foldl transformInsert []

/-- One `dataMap.set(item.created_at, item)` call: overwrite the entry in
place when the key exists, append otherwise. -/
def mergeInsert (acc : List Row) (r : Row) : List Row :=
  if acc.any (fun x => x.created_at = r.created_at) then
    acc.map (fun x => if x.created_at = r.created_at then r else x)
  else acc ++ [r]

/-- Comparator used by `combinedData.sort((a, b) => a.created_at - b.created_at)`. -/
def rowLE (a b : Row) : Prop := a.created_at ≤ b.created_at

instance : DecidableRel rowLE := fun a b => inferInstanceAs (Decidable (a.created_at ≤ b.created_at))

instance : IsTotal Row rowLE := ⟨fun a b => Nat.le_total a.created_at b.created_at⟩

instance : IsTrans Row rowLE := ⟨fun _ _ _ h1 h2 => Nat.le_trans h1 h2⟩

/-- The merge-and-sort pass of `setTcpingData` (`page.tsx` step 3): feed
`currentData` then `newChartData` into a timestamp-keyed map and sort the
values by timestamp. -/
def mergeRows (currentData newChartData : List Row) : List Row :=
  List.insertionSort rowLE ((currentData ++ newChartData).foldl mergeInsert [])

/-- Fill treatment of a single monitor name at a single row, mirroring the
inner loop body: if the row has a value for the name, record it as last
known; otherwise copy the last known value into the row (copying
`undefined` is a no-op). The state is `(dataPoint, lastKnownValues)`. -/
def fillName (st : Row × List (String × ℚ)) (m : String) : Row × List (String × ℚ) :=
  match alookup m st.1.values with
  | some v => (st.1, aset m v st.2)
  | none =>
    match alookup m st.2 with
    | some v => ({ st.1 with values := aset m v st.1.values }, st.2)
    | none => st

/-- Fill treatment of a single row: iterate `fillName` over every monitor
name. -/
def fillRow (names : List String) (lk : List (String × ℚ)) (r : Row) :
    Row × List (String × ℚ) :=
  names.foldl fillName (r, lk)

/-- The fill loop `for (const dataPoint of combinedData) ...` threading
`lastKnownValues` through the rows in order. -/
def fillRows (names : List String) (lk : List (String × ℚ)) : List Row → List Row
  | [] => []
  | r :: rs =>
    (fillRow names lk r).1 :: fillRows names (fillRow names lk r).2 rs

/-- Precomputed first-value lookup (`firstAvailableValues` in `page.tsx`):
for each monitor name, the value carried by the first row that defines it. -/
def firstAvailable (names : List String) (rows : List Row) : List (String × ℚ) :=
  names.foldl
    (fun acc m =>
      match rows.findSome? (fun r => alookup m r.values) with
      | some v => aset m v acc
      | none => acc)
    []

/-- The whole `setTcpingData` functional update (`page.tsx` lines 322-349):
merge, sort, seed `lastKnownValues` with the first available values, then
fill every row. -/
def setTcpingData (names : List String) (currentData newChartData : List Row) : List Row :=
  fillRows names (firstAvailable names (mergeRows currentData newChartData))
    (mergeRows currentData newChartData)

/-- Monitor-name state after one fetch in the stateful first page version:
`Array.from(new Set([...monitorNamesRef.current, ...newMonitors]))`. -/
def namesAfter (prior : List String) (raw : List RawPoint) : List String :=
  dedupFirst (prior ++ raw.map (fun p => p.monitor_name))

/-- One round of the stateful TCPing pipeline (first page version,
`page.tsx` lines 288-364): `prior` is `monitorNamesRef.current`,
`currentData` the rows already held, `raw` the fetched response. -/
def processTcping (prior : List String) (currentData : List Row) (raw : List RawPoint) :
    List Row :=
  setTcpingData (namesAfter prior raw) currentData (transform raw)

/-- The stateless second page version (`page.tsx` lines 781-852 of the
second document): fresh names from the response only, empty prior row set. -/
def fetchAndProcessTcpingData (raw : List RawPoint) : List Row :=
  setTcpingData (namesAfter [] raw) [] (transform raw)

/-- Utility `chunk` (`page.tsx` lines 182-185): split an array into
consecutive sub-arrays of the given size, via
`Array.from({length: Math.ceil(arr.length / size)}, (v, i) =>
arr.slice(i * size, i * size + size))`. -/
def chunk {α : Type} (arr : List α) (size : Nat) : List (List α) :=
  (List.range ((arr.length + size - 1) / size)).map
    (fun i => (arr.drop (i * size)).take size)

/-- Rounding a rational to `dm` decimal digits, the exact-arithmetic content
of `parseFloat(x.toFixed(dm))`. -/
def roundTo (dm : Nat) (q : ℚ) : ℚ :=
  (round (q * (10 : ℚ) ^ dm) : ℤ) / (10 : ℚ) ^ dm

/-- Utility `formatBytes` (`page.tsx` lines 94-101). Byte counts are
naturals and floating point is idealised as exact arithmetic:
`Math.floor(Math.log(bytes) / Math.log(1024))` becomes `Nat.log 1024 bytes`
on the non-zero branch, which the zero guard keeps unreachable for zero
input (in JavaScript that branch would compute `Math.log(0) = -Infinity`
and produce `NaN`). -/
def formatBytes (bytes : Nat) (decimals : Int) : String :=
  if bytes = 0 then "0 Bytes"
  else
    let dm : Nat := if decimals < 0 then 0 else decimals.toNat
    let sizes : List String := ["Bytes", "KB", "MB", "GB", "TB", "PB"]
    let i : Nat := Nat.log 1024 bytes
    toString (roundTo dm ((bytes : ℚ) / (1024 : ℚ) ^ i)) ++ " " ++ sizes.getD i "undefined"

/-- Raw latency sample as described by the specification's data model
(section 3): monitor, instant, and a delay that is absent for failed
probes. -/
structure Sample where
  monitor_id : String
  timestamp : Nat
  delay : Option ℚ
deriving DecidableEq, Repr

/-- Modelled from the spec: epoch anchoring of bucket boundaries
(section 4.1) — the bucket start of an instant is the greatest multiple of
the interval not exceeding it. The backend Resampler is not part of the
provided sources. -/
def bucketStart (interval t : Nat) : Nat := t / interval * interval

/-- Modelled from the spec: the backend Resampler (section 4.1), absent
from the provided sources. For one monitor's samples and a half-open
window, emit one `(bucket_start, mean)` pair per epoch-anchored slot that
contains at least one successful sample; the value is the arithmetic mean
of the successful delays whose timestamp lies in
`[bucket_start, bucket_start + interval)`; empty slots are not
synthesized. -/
def resample (interval since untilT : Nat) (ss : List Sample) : List (Nat × ℚ) :=
  let inWin := ss.filter (fun s => decide (since ≤ s.timestamp ∧ s.timestamp < untilT))
  let starts := List.insertionSort (· ≤ ·)
    (dedupFirst (inWin.map (fun s => bucketStart interval s.timestamp)))
  starts.filterMap (fun b =>
    let vals := (inWin.filter
      (fun s => decide (b ≤ s.timestamp ∧ s.timestamp < b + interval))).filterMap
      (fun s => s.delay)
    if vals.length = 0 then none else some (b, vals.sum / (vals.length : ℚ)))

/-- Modelled from the spec: the Query Service response body (sections 4.3
and 6), absent from the provided sources — per requested monitor, in order,
the resampled buckets rendered as raw data points for the client. -/
def backendRows (interval since untilT : Nat) (monitors : List String)
    (ss : List Sample) : List RawPoint :=
  monitors.flatMap (fun m =>
    (resample interval since untilT (ss.filter (fun s => decide (s.monitor_id = m)))).map
      (fun p => { monitor_name := m, avg_delay := p.2, created_at := p.1 }))

/-- Sample set of the specification's worked scenario (section 8): monitor
`A` at `10:00:01` (20 ms) and `10:04:50` (30 ms), monitor `B` at `10:02:00`
(15 ms); instants in seconds from `10:00 = 36000`. -/
def scenarioSamples : List Sample :=
  [ { monitor_id := "A", timestamp := 36001, delay := some 20 }
  , { monitor_id := "A", timestamp := 36290, delay := some 30 }
  , { monitor_id := "B", timestamp := 36120, delay := some 15 } ]

/-- End-to-end run of the scenario: resample with a 5-minute interval over
the window `[10:00, 10:10)` and hand the response to the client pipeline. -/
def scenarioOutput : List Row :=
  fetchAndProcessTcpingData (backendRows 300 36000 36600 ["A", "B"] scenarioSamples)

/-- Timestamp key sequence of a row list. -/
def keysOf (rows : List Row) : List Nat := rows.map (fun r => r.created_at)

/-- Row stored under a timestamp key: the first (and, when keys are
deduplicated, only) row carrying it. -/
def findRow (t : Nat) (rows : List Row) : Option Row :=
  rows.find? (fun r => decide (r.created_at = t))

/-- Last row of a list carrying a given timestamp — the value a
timestamp-keyed map holds after inserting the list in order. -/
def lastWith (t : Nat) (rows : List Row) : Option Row :=
  rows.reverse.find? (fun r => decide (r.created_at = t))

/-- Value of the nearest row before index `i` that defines monitor `m`. -/
def lastRealBefore (m : String) (rows : List Row) (i : Nat) : Option ℚ :=
  (rows.take i).reverse.findSome? (fun r => alookup m r.values)

/-- Value of the first row that defines monitor `m`. -/
def firstRealValue (m : String) (rows : List Row) : Option ℚ :=
  rows.findSome? (fun r => alookup m r.values)

/-! Basic lemmas about the dictionary model. -/

theorem alookup_aset_self (m : String) (v : ℚ) (l : List (String × ℚ)) :
    alookup m (aset m v l) = some v := by
  induction l with
  | nil => simp [aset, alookup]
  | cons p rest ih =>
    by_cases h : p.1 = m
    · simp [aset, h, alookup]
    · simp [aset, h, alookup, ih]

theorem alookup_aset_ne (k m : String) (hne : k ≠ m) (v : ℚ) (l : List (String × ℚ)) :
    alookup m (aset k v l) = alookup m l := by
  induction l with
  | nil => simp [aset, alookup, hne]
  | cons p rest ih =>
    by_cases h : p.1 = k
    · simp [aset, h, alookup, hne]
    · simp [aset, h, alookup, ih]

theorem mem_dedupFirst {α : Type} [DecidableEq α] (a : α) (l : List α) :
    a ∈ dedupFirst l ↔ a ∈ l := by
  induction l with
  | nil => simp [dedupFirst]
  | cons x xs ih =>
    simp only [dedupFirst, List.mem_cons, List.mem_filter]
    constructor
    · rintro (rfl | ⟨h, _⟩)
      · exact Or.inl rfl
      · exact Or.inr (ih.mp h)
    · rintro (rfl | h)
      · exact Or.inl rfl
      · by_cases hax : a = x
        · exact Or.inl hax
        · exact Or.inr ⟨ih.mpr h, by simpa using hax⟩

theorem dedupFirst_nodup {α : Type} [DecidableEq α] (l : List α) :
    (dedupFirst l).Nodup := by
  induction l with
  | nil => simp [dedupFirst]
  | cons x xs ih =>
    refine List.nodup_cons.mpr ⟨?_, ih.filter _⟩
    intro hx
    have := (List.mem_filter.mp hx).2
    simp at this

theorem dedupFirst_eq_self {α : Type} [DecidableEq α] (l : List α) (h : l.Nodup) :
    dedupFirst l = l := by
  induction l with
  | nil => rfl
  | cons x xs ih =>
    have hx : x ∉ xs := (List.nodup_cons.mp h).1
    have hxs := ih (List.nodup_cons.mp h).2
    simp only [dedupFirst, hxs]
    rw [List.filter_eq_self.mpr]
    intro a ha
    simp only [ne_eq, decide_eq_true_eq]
    rintro rfl
    exact hx ha

theorem filter_ne_filter_not_mem {α : Type} [DecidableEq α] (x : α) (xs l : List α) :
    (l.filter (fun y => decide (y ∉ xs))).filter (fun y => decide (y ≠ x)) =
      l.filter (fun y => decide (y ∉ x :: xs)) := by
  rw [List.filter_filter]
  apply List.filter_congr
  intro a _
  by_cases h1 : a = x <;> by_cases h2 : a ∈ xs <;> simp [h1, h2]

theorem dedupFirst_append {α : Type} [DecidableEq α] (l1 l2 : List α) :
    dedupFirst (l1 ++ l2) =
      dedupFirst l1 ++ (dedupFirst l2).filter (fun y => decide (y ∉ l1)) := by
  induction l1 with
  | nil => simp [dedupFirst]
  | cons x xs ih =>
    rw [List.cons_append, dedupFirst, ih, List.filter_append, filter_ne_filter_not_mem,
      dedupFirst, List.cons_append]

theorem dedupFirst_append_of_subset {α : Type} [DecidableEq α] (l1 l2 : List α)
    (h : ∀ a ∈ l2, a ∈ l1) : dedupFirst (l1 ++ l2) = dedupFirst l1 := by
  rw [dedupFirst_append]
  have hnil : (dedupFirst l2).filter (fun y => decide (y ∉ l1)) = [] := by
    rw [List.filter_eq_nil_iff]
    intro a ha
    simp only [decide_eq_true_eq, Decidable.not_not]
    exact h a ((mem_dedupFirst a l2).mp ha)
  rw [hnil, List.append_nil]

/-! Lemmas about the fill pass. -/

theorem fillName_created_at (st : Row × List (String × ℚ)) (m : String) :
    (fillName st m).1.created_at = st.1.created_at := by
  unfold fillName
  cases alookup m st.1.values with
  | some v => rfl
  | none => cases alookup m st.2 with
    | some v => rfl
    | none => rfl

theorem fillRow_created_at (names : List String) (lk : List (String × ℚ)) (r : Row) :
    (fillRow names lk r).1.created_at = r.created_at := by
  suffices h : ∀ (ns : List String) (st : Row × List (String × ℚ)),
      (ns.foldl fillName st).1.created_at = st.1.created_at by
    exact h names (r, lk)
  intro ns
  induction ns with
  | nil => intro st; rfl
  | cons n ns ih =>
    intro st
    rw [List.foldl_cons, ih, fillName_created_at]

theorem fillRows_map_created_at (names : List String) (lk : List (String × ℚ))
    (rows : List Row) :
    (fillRows names lk rows).map (fun r => r.created_at) =
      rows.map (fun r => r.created_at) := by
  induction rows generalizing lk with
  | nil => rfl
  | cons r rs ih =>
    simp [fillRows, fillRow_created_at, ih]

theorem fillRows_length (names : List String) (lk : List (String × ℚ)) (rows : List Row) :
    (fillRows names lk rows).length = rows.length := by
  have := fillRows_map_created_at names lk rows
  have h1 := congrArg List.length this
  simpa using h1

theorem fillName_lookup_ne (st : Row × List (String × ℚ)) (n m : String) (hne : n ≠ m) :
    alookup m (fillName st n).1.values = alookup m st.1.values ∧
      alookup m (fillName st n).2 = alookup m st.2 := by
  unfold fillName
  cases hv : alookup n st.1.values with
  | some v => exact ⟨rfl, alookup_aset_ne n m hne v st.2⟩
  | none =>
    cases hl : alookup n st.2 with
    | some v => exact ⟨alookup_aset_ne n m hne v st.1.values, rfl⟩
    | none => exact ⟨rfl, rfl⟩

theorem fillName_lookup_self (st : Row × List (String × ℚ)) (m : String) :
    alookup m (fillName st m).1.values = (alookup m st.1.values).or (alookup m st.2) ∧
      alookup m (fillName st m).2 = (alookup m st.1.values).or (alookup m st.2) := by
  unfold fillName
  cases hv : alookup m st.1.values with
  | some v => exact ⟨by simp [hv], by simp [alookup_aset_self]⟩
  | none =>
    cases hl : alookup m st.2 with
    | some v => exact ⟨by simp [alookup_aset_self], by simp [hl]⟩
    | none => exact ⟨by simp [hv], by simp [hl]⟩

theorem fillFold_preserve (ns : List String) (m : String) (hm : m ∉ ns)
    (st : Row × List (String × ℚ)) :
    alookup m (ns.foldl fillName st).1.values = alookup m st.1.values ∧
      alookup m (ns.foldl fillName st).2 = alookup m st.2 := by
  induction ns generalizing st with
  | nil => exact ⟨rfl, rfl⟩
  | cons n ns ih =>
    have hne : n ≠ m := fun h => hm (h ▸ List.mem_cons_self n ns)
    have hm2 : m ∉ ns := fun h => hm (List.mem_cons_of_mem n h)
    rw [List.foldl_cons]
    obtain ⟨h1, h2⟩ := ih hm2 (fillName st n)
    obtain ⟨h3, h4⟩ := fillName_lookup_ne st n m hne
    exact ⟨h1.trans h3, h2.trans h4⟩

theorem fillRow_lookup (names : List String) (hnd : names.Nodup) (m : String)
    (hm : m ∈ names) (lk : List (String × ℚ)) (r : Row) :
    alookup m (fillRow names lk r).1.values = (alookup m r.values).or (alookup m lk) ∧
      alookup m (fillRow names lk r).2 = (alookup m r.values).or (alookup m lk) := by
  obtain ⟨s, t, rfl⟩ := List.append_of_mem hm
  have hnd2 := List.nodup_append.mp hnd
  have hms : m ∉ s := fun h => (hnd2.2.2 h) (List.mem_cons_self m t)
  have hmt : m ∉ t := (List.nodup_cons.mp hnd2.2.1).1
  unfold fillRow
  rw [List.foldl_append, List.foldl_cons]
  obtain ⟨h1, h2⟩ := fillFold_preserve s m hms (r, lk)
  obtain ⟨h3, h4⟩ := fillName_lookup_self (s.foldl fillName (r, lk)) m
  rw [h1, h2] at h3 h4
  obtain ⟨h5, h6⟩ := fillFold_preserve t m hmt (fillName (s.foldl fillName (r, lk)) m)
  exact ⟨h5.trans h3, h6.trans h4⟩

theorem lastRealBefore_zero (m : String) (rows : List Row) :
    lastRealBefore m rows 0 = none := rfl

theorem findSome?_singleton (f : Row → Option ℚ) (r : Row) :
    [r].findSome? f = f r := by
  cases h : f r <;> simp [h]

theorem lastRealBefore_cons_succ (m : String) (r : Row) (rs : List Row) (i : Nat) :
    lastRealBefore m (r :: rs) (i + 1) =
      (lastRealBefore m rs i).or (alookup m r.values) := by
  unfold lastRealBefore
  rw [List.take_succ_cons, List.reverse_cons, List.findSome?_append, findSome?_singleton]

theorem fillRows_lookup (names : List String) (hnd : names.Nodup) (m : String)
    (hm : m ∈ names) (lk : List (String × ℚ)) (rows : List Row) (i : Nat) :
    ((fillRows names lk rows)[i]?).map (fun r => alookup m r.values) =
      (rows[i]?).map (fun r =>
        ((alookup m r.values).or (lastRealBefore m rows i)).or (alookup m lk)) := by
  induction rows generalizing lk i with
  | nil => simp [fillRows]
  | cons r rs ih =>
    obtain ⟨hrow, hlk⟩ := fillRow_lookup names hnd m hm lk r
    cases i with
    | zero =>
      simp [fillRows, hrow, lastRealBefore_zero]
    | succ i =>
      simp only [fillRows, List.getElem?_cons_succ]
      rw [ih (fillRow names lk r).2 i, hlk]
      cases hri : rs[i]? with
      | none => rfl
      | some rr =>
        simp only [Option.map_some']
        congr 1
        rw [lastRealBefore_cons_succ]
        cases alookup m rr.values <;> cases lastRealBefore m rs i <;>
          cases alookup m r.values <;> cases alookup m lk <;> rfl

theorem firstAvailable_fold_lookup (m : String) (rows : List Row) (names : List String)
    (acc : List (String × ℚ)) :
    alookup m (names.foldl
        (fun acc2 n =>
          match rows.findSome? (fun r => alookup n r.values) with
          | some v => aset n v acc2
          | none => acc2) acc) =
      if m ∈ names then (firstRealValue m rows).or (alookup m acc)
      else alookup m acc := by
  induction names generalizing acc with
  | nil => simp
  | cons n ns ih =>
    rw [List.foldl_cons, ih]
    by_cases hmn : m = n
    · subst hmn
      by_cases hm : m ∈ ns
      · simp only [hm, if_true, List.mem_cons, true_or]
        cases hF : firstRealValue m rows with
        | none =>
          have : rows.findSome? (fun r => alookup m r.values) = none := hF
          simp [this]
        | some v =>
          simp [Option.or]
      · simp only [hm, if_false, List.mem_cons, true_or, if_true]
        cases hF : firstRealValue m rows with
        | none =>
          have : rows.findSome? (fun r => alookup m r.values) = none := hF
          simp [this, Option.or]
        | some v =>
          have : rows.findSome? (fun r => alookup m r.values) = some v := hF
          simp [this, alookup_aset_self, Option.or]
    · have hacc : alookup m
          (match rows.findSome? (fun r => alookup n r.values) with
           | some v => aset n v acc
           | none => acc) = alookup m acc := by
        cases hF : rows.findSome? (fun r => alookup n r.values) with
        | none => rfl
        | some v => exact alookup_aset_ne n m (fun h => hmn h.symm) v acc
      rw [hacc]
      have hmem : (m ∈ n :: ns) ↔ (m ∈ ns) := by
        simp [List.mem_cons, hmn]
      by_cases hm : m ∈ ns <;> simp [hm, hmem]

theorem firstAvailable_lookup (names : List String) (rows : List Row) (m : String) :
    alookup m (firstAvailable names rows) =
      if m ∈ names then firstRealValue m rows else none := by
  unfold firstAvailable
  rw [firstAvailable_fold_lookup]
  by_cases hm : m ∈ names <;> cases hF : firstRealValue m rows <;>
    simp [hm, hF, alookup, Option.or]

/-! Lemmas about the timestamp-keyed merge. -/

theorem findRow_cons (t : Nat) (a : Row) (l : List Row) :
    findRow t (a :: l) = if a.created_at = t then some a else findRow t l := by
  by_cases h : a.created_at = t <;> simp [findRow, List.find?, h]

theorem find?_singleton (p : Row → Bool) (a : Row) :
    [a].find? p = if p a then some a else none := by
  by_cases h : p a <;> simp [List.find?, h]

theorem lastWith_nil (t : Nat) : lastWith t [] = none := rfl

theorem lastWith_cons (t : Nat) (a : Row) (l : List Row) :
    lastWith t (a :: l) =
      (lastWith t l).or (if a.created_at = t then some a else none) := by
  unfold lastWith
  rw [List.reverse_cons, List.find?_append, find?_singleton]
  by_cases h : a.created_at = t <;> simp [h]

theorem lastWith_append (t : Nat) (l1 l2 : List Row) :
    lastWith t (l1 ++ l2) = (lastWith t l2).or (lastWith t l1) := by
  unfold lastWith
  rw [List.reverse_append, List.find?_append]

theorem findRow_isSome_iff (t : Nat) (rows : List Row) :
    (findRow t rows).isSome ↔ t ∈ keysOf rows := by
  unfold findRow keysOf
  rw [List.find?_isSome]
  simp [List.mem_map]

theorem lastWith_isSome_iff (t : Nat) (rows : List Row) :
    (lastWith t rows).isSome ↔ t ∈ keysOf rows := by
  unfold lastWith keysOf
  rw [List.find?_isSome]
  simp [List.mem_map]

theorem findRow_map_replace_self (acc : List Row) (r : Row)
    (hex : ∃ x ∈ acc, x.created_at = r.created_at) :
    findRow r.created_at
      (acc.map (fun x => if x.created_at = r.created_at then r else x)) = some r := by
  induction acc with
  | nil => simp at hex
  | cons a as ih =>
    by_cases h : a.created_at = r.created_at
    · simp [findRow_cons, h]
    · obtain ⟨x, hx, hxc⟩ := hex
      rcases List.mem_cons.mp hx with rfl | hx2
      · exact absurd hxc h
      · simp only [List.map_cons, if_neg h, findRow_cons, h, if_false]
        exact ih ⟨x, hx2, hxc⟩

theorem findRow_map_replace_ne (acc : List Row) (r : Row) (t : Nat)
    (hne : r.created_at ≠ t) :
    findRow t (acc.map (fun x => if x.created_at = r.created_at then r else x)) =
      findRow t acc := by
  induction acc with
  | nil => rfl
  | cons a as ih =>
    by_cases h : a.created_at = r.created_at
    · have hat : a.created_at ≠ t := h ▸ hne
      simp only [List.map_cons, if_pos h, findRow_cons, if_neg hne, if_neg hat]
      exact ih
    · simp only [List.map_cons, if_neg h, findRow_cons]
      by_cases hat : a.created_at = t
      · simp [hat]
      · simp only [if_neg hat]
        exact ih

theorem findRow_mergeInsert (acc : List Row) (r : Row) (t : Nat) :
    findRow t (mergeInsert acc r) =
      if r.created_at = t then some r else findRow t acc := by
  unfold mergeInsert
  by_cases hin : acc.any (fun x => decide (x.created_at = r.created_at)) = true
  · rw [if_pos hin]
    have hex : ∃ x ∈ acc, x.created_at = r.created_at := by simpa using hin
    by_cases ht : r.created_at = t
    · subst ht
      rw [if_pos rfl, findRow_map_replace_self acc r hex]
    · rw [if_neg ht, findRow_map_replace_ne acc r t ht]
  · rw [if_neg hin]
    have hnex : ∀ x ∈ acc, ¬ x.created_at = r.created_at := by simpa using hin
    unfold findRow
    rw [List.find?_append, find?_singleton]
    by_cases ht : r.created_at = t
    · subst ht
      have hnone : acc.find? (fun x => decide (x.created_at = r.created_at)) = none := by
        rw [List.find?_eq_none]
        intro x hx
        simpa using hnex x hx
      simp [hnone]
    · simp [ht]

theorem findRow_foldl (l : List Row) (acc : List Row) (t : Nat) :
    findRow t (l.foldl mergeInsert acc) = (lastWith t l).or (findRow t acc) := by
  induction l generalizing acc with
  | nil => simp [lastWith_nil]
  | cons r rs ih =>
    rw [List.foldl_cons, ih, findRow_mergeInsert, lastWith_cons]
    by_cases h : r.created_at = t <;> cases hl : lastWith t rs <;> simp [h, hl]

theorem keysOf_mergeInsert_of_mem (acc : List Row) (r : Row)
    (hin : acc.any (fun x => decide (x.created_at = r.created_at)) = true) :
    keysOf (mergeInsert acc r) = keysOf acc := by
  unfold mergeInsert keysOf
  rw [if_pos hin, List.map_map]
  apply List.map_congr_left
  intro a _
  by_cases h : a.created_at = r.created_at <;> simp [h]

theorem keysOf_mergeInsert_of_not_mem (acc : List Row) (r : Row)
    (hin : ¬ acc.any (fun x => decide (x.created_at = r.created_at)) = true) :
    keysOf (mergeInsert acc r) = keysOf acc ++ [r.created_at] := by
  unfold mergeInsert keysOf
  rw [if_neg hin]
  simp

theorem keysOf_foldl_nodup (l : List Row) (acc : List Row)
    (hacc : (keysOf acc).Nodup) : (keysOf (l.foldl mergeInsert acc)).Nodup := by
  induction l generalizing acc with
  | nil => exact hacc
  | cons r rs ih =>
    rw [List.foldl_cons]
    apply ih
    by_cases hin : acc.any (fun x => decide (x.created_at = r.created_at)) = true
    · rwa [keysOf_mergeInsert_of_mem acc r hin]
    · rw [keysOf_mergeInsert_of_not_mem acc r hin]
      have hnex : ∀ x ∈ acc, ¬ x.created_at = r.created_at := by simpa using hin
      refine List.nodup_append.mpr ⟨hacc, List.nodup_singleton _, ?_⟩
      intro a ha hb
      have hba : a = r.created_at := by simpa using hb
      obtain ⟨x, hx, hxa⟩ := List.mem_map.mp ha
      exact hnex x hx (hxa.trans hba)

theorem find?_eq_head?_filter (p : Row → Bool) (l : List Row) :
    l.find? p = (l.filter p).head? := by
  induction l with
  | nil => rfl
  | cons a as ih =>
    by_cases h : p a = true
    · rw [List.find?_cons_of_pos _ h, List.filter_cons_of_pos h, List.head?_cons]
    · rw [List.find?_cons_of_neg _ h, List.filter_cons_of_neg h]
      exact ih

theorem filter_key_length_le_one (l : List Row) (h : (keysOf l).Nodup) (t : Nat) :
    (l.filter (fun r => decide (r.created_at = t))).length ≤ 1 := by
  induction l with
  | nil => simp
  | cons a as ih =>
    have hkeys : keysOf (a :: as) = a.created_at :: keysOf as := rfl
    rw [hkeys] at h
    have hna : a.created_at ∉ keysOf as := (List.nodup_cons.mp h).1
    have h2 : (keysOf as).Nodup := (List.nodup_cons.mp h).2
    by_cases hp : a.created_at = t
    · have hnil : as.filter (fun r => decide (r.created_at = t)) = [] := by
        rw [List.filter_eq_nil_iff]
        intro x hx
        simp only [decide_eq_true_eq]
        intro hxa
        have hxe : x.created_at = a.created_at := hxa.trans hp.symm
        exact hna (hxe ▸ List.mem_map_of_mem (fun r => r.created_at) hx)
      rw [List.filter_cons_of_pos (by simpa using hp), hnil]
      simp
    · rw [List.filter_cons_of_neg (by simpa using hp)]
      exact ih h2

theorem perm_eq_of_length_le_one (l1 l2 : List Row) (h : List.Perm l1 l2)
    (hl : l1.length ≤ 1) : l1 = l2 := by
  match l1, hl with
  | [], _ => exact (h.symm.eq_nil).symm
  | [a], _ => exact (List.perm_singleton.mp h.symm).symm

theorem findRow_perm (l1 l2 : List Row) (h : List.Perm l1 l2)
    (hnd : (keysOf l1).Nodup) (t : Nat) : findRow t l1 = findRow t l2 := by
  unfold findRow
  rw [find?_eq_head?_filter, find?_eq_head?_filter]
  congr 1
  exact perm_eq_of_length_le_one _ _ (h.filter _) (filter_key_length_le_one l1 hnd t)

theorem keysOf_mergeRows_nodup (old new : List Row) :
    (keysOf (mergeRows old new)).Nodup := by
  have hperm : List.Perm (mergeRows old new) ((old ++ new).foldl mergeInsert []) :=
    List.perm_insertionSort rowLE _
  have hF : (keysOf ((old ++ new).foldl mergeInsert [])).Nodup :=
    keysOf_foldl_nodup _ [] (by simp [keysOf])
  unfold keysOf at hF ⊢
  exact (List.Perm.nodup_iff (hperm.map (fun r => r.created_at))).mpr hF

theorem findRow_mergeRows (old new : List Row) (t : Nat) :
    findRow t (mergeRows old new) = (lastWith t new).or (lastWith t old) := by
  have hperm : List.Perm (mergeRows old new) ((old ++ new).foldl mergeInsert []) :=
    List.perm_insertionSort rowLE _
  rw [findRow_perm _ _ hperm (keysOf_mergeRows_nodup old new) t, findRow_foldl,
    lastWith_append]
  cases lastWith t new <;> cases lastWith t old <;> rfl

theorem mem_keysOf_mergeRows (old new : List Row) (t : Nat) :
    t ∈ keysOf (mergeRows old new) ↔ t ∈ keysOf old ∨ t ∈ keysOf new := by
  rw [← findRow_isSome_iff, findRow_mergeRows]
  rw [← lastWith_isSome_iff, ← lastWith_isSome_iff]
  cases lastWith t new <;> cases lastWith t old <;> simp [Option.or]

theorem keysOf_mergeRows_pairwise_lt (old new : List Row) :
    (keysOf (mergeRows old new)).Pairwise (· < ·) := by
  have hs : List.Pairwise rowLE (mergeRows old new) :=
    List.sorted_insertionSort rowLE _
  have hnd : (keysOf (mergeRows old new)).Nodup := keysOf_mergeRows_nodup old new
  have hne : List.Pairwise (fun a b : Row => a.created_at ≠ b.created_at)
      (mergeRows old new) := List.pairwise_map.mp hnd
  have := hs.and hne
  unfold keysOf
  rw [List.pairwise_map]
  exact this.imp (fun h => lt_of_le_of_ne h.1 h.2)

/-- Extensionality for strictly key-sorted row lists: two of them carrying
the same row under every timestamp are equal. -/
theorem sorted_ext (l1 l2 : List Row) (h1 : (keysOf l1).Pairwise (· < ·))
    (h2 : (keysOf l2).Pairwise (· < ·)) (h : ∀ t, findRow t l1 = findRow t l2) :
    l1 = l2 := by
  induction l1 generalizing l2 with
  | nil =>
    cases l2 with
    | nil => rfl
    | cons b bs =>
      have hb := h b.created_at
      rw [findRow_cons, if_pos rfl] at hb
      exact absurd hb.symm (by simp [findRow])
  | cons a as ih =>
    cases l2 with
    | nil =>
      have ha := h a.created_at
      rw [findRow_cons, if_pos rfl] at ha
      exact absurd ha (by simp [findRow])
    | cons b bs =>
      have hka : keysOf (a :: as) = a.created_at :: keysOf as := rfl
      have hkb : keysOf (b :: bs) = b.created_at :: keysOf bs := rfl
      rw [hka] at h1
      rw [hkb] at h2
      have hab : a = b := by
        have ha := h a.created_at
        rw [findRow_cons, if_pos rfl] at ha
        have hb := h b.created_at
        rw [findRow_cons (b.created_at) b bs, if_pos rfl] at hb
        by_cases hk : b.created_at = a.created_at
        · rw [findRow_cons, if_pos hk] at ha
          exact Option.some.inj ha
        · rw [findRow_cons, if_neg hk] at ha
          have hmem : a ∈ bs := by
            have := List.mem_of_find?_eq_some ha.symm
            exact this
          have hlt : b.created_at < a.created_at := by
            have := (List.pairwise_cons.mp h2).1
            exact this a.created_at
              (by
                have : a.created_at ∈ keysOf bs :=
                  List.mem_map_of_mem (fun r => r.created_at) hmem
                exact this)
          by_cases hk2 : a.created_at = b.created_at
          · exact absurd hk2.symm hk
          · rw [findRow_cons, if_neg (fun hh : a.created_at = b.created_at => hk2 hh)] at hb
            have hmem2 : b ∈ as := List.mem_of_find?_eq_some hb
            have hlt2 : a.created_at < b.created_at := by
              have := (List.pairwise_cons.mp h1).1
              exact this b.created_at
                (List.mem_map_of_mem (fun r => r.created_at) hmem2)
            exact absurd hlt2 (not_lt.mpr (le_of_lt hlt))
      subst hab
      congr 1
      refine ih bs (List.pairwise_cons.mp h1).2 (List.pairwise_cons.mp h2).2 ?_
      intro t
      by_cases ht : t = a.created_at
      · have hnone1 : findRow t as = none := by
          rw [findRow, List.find?_eq_none]
          intro x hx
          have hlt := (List.pairwise_cons.mp h1).1 x.created_at
            (List.mem_map_of_mem (fun r => r.created_at) hx)
          simp only [decide_eq_true_eq]
          intro hxx
          rw [ht] at hxx
          exact absurd hxx.symm (ne_of_lt hlt)
        have hnone2 : findRow t bs = none := by
          rw [findRow, List.find?_eq_none]
          intro x hx
          have hlt := (List.pairwise_cons.mp h2).1 x.created_at
            (List.mem_map_of_mem (fun r => r.created_at) hx)
          simp only [decide_eq_true_eq]
          intro hxx
          rw [ht] at hxx
          exact absurd hxx.symm (ne_of_lt hlt)
        rw [hnone1, hnone2]
      · have := h t
        rw [findRow_cons, if_neg (fun hh => ht hh.symm),
          findRow_cons, if_neg (fun hh => ht hh.symm)] at this
        exact this

/-! Lemmas feeding the no-fabrication and idempotence claims. -/

theorem alookup_transformInsert_none (acc : List Row) (p : RawPoint) (m : String)
    (hm : p.monitor_name ≠ m)
    (hacc : ∀ r ∈ acc, alookup m r.values = none) :
    ∀ r ∈ transformInsert acc p, alookup m r.values = none := by
  intro r hr
  unfold transformInsert at hr
  by_cases hin : acc.any (fun x => decide (x.created_at = p.created_at)) = true
  · rw [if_pos hin] at hr
    obtain ⟨x, hx, hxr⟩ := List.mem_map.mp hr
    by_cases h : x.created_at = p.created_at
    · rw [if_pos h] at hxr
      subst hxr
      simpa [alookup_aset_ne _ _ hm] using hacc x hx
    · rw [if_neg h] at hxr
      exact hxr ▸ hacc x hx
  · rw [if_neg hin] at hr
    rcases List.mem_append.mp hr with hr1 | hr2
    · exact hacc r hr1
    · have hre : r = ⟨p.created_at, [(p.monitor_name, p.avg_delay)]⟩ := by
        simpa using hr2
      subst hre
      simp [alookup, hm]

theorem transform_lookup_none (raw : List RawPoint) (m : String)
    (hm : ∀ p ∈ raw, p.monitor_name ≠ m) :
    ∀ r ∈ transform raw, alookup m r.values = none := by
  unfold transform
  suffices hgen : ∀ (l : List RawPoint), (∀ p ∈ l, p.monitor_name ≠ m) →
      ∀ (acc : List Row), (∀ r ∈ acc, alookup m r.values = none) →
      ∀ r ∈ l.foldl transformInsert acc, alookup m r.values = none by
    exact hgen raw hm [] (by simp)
  intro l
  induction l with
  | nil => intro _ acc hacc r hr; exact hacc r hr
  | cons p ps ih =>
    intro hl acc hacc
    rw [List.foldl_cons]
    exact ih (fun q hq => hl q (List.mem_cons_of_mem p hq))
      (transformInsert acc p)
      (alookup_transformInsert_none acc p m (hl p (List.mem_cons_self p ps)) hacc)

theorem mem_mergeInsert (acc : List Row) (r x : Row) (hx : x ∈ mergeInsert acc r) :
    x ∈ acc ∨ x = r := by
  unfold mergeInsert at hx
  by_cases hin : acc.any (fun y => decide (y.created_at = r.created_at)) = true
  · rw [if_pos hin] at hx
    obtain ⟨y, hy, hyx⟩ := List.mem_map.mp hx
    by_cases h : y.created_at = r.created_at
    · rw [if_pos h] at hyx
      exact Or.inr hyx.symm
    · rw [if_neg h] at hyx
      exact Or.inl (hyx ▸ hy)
  · rw [if_neg hin] at hx
    rcases List.mem_append.mp hx with h1 | h2
    · exact Or.inl h1
    · exact Or.inr (by simpa using h2)

theorem mem_foldl_mergeInsert (l : List Row) (acc : List Row) (x : Row)
    (hx : x ∈ l.foldl mergeInsert acc) : x ∈ acc ∨ x ∈ l := by
  induction l generalizing acc with
  | nil => exact Or.inl hx
  | cons r rs ih =>
    rw [List.foldl_cons] at hx
    rcases ih (mergeInsert acc r) hx with h1 | h2
    · rcases mem_mergeInsert acc r x h1 with h3 | h4
      · exact Or.inl h3
      · exact Or.inr (h4 ▸ List.mem_cons_self r rs)
    · exact Or.inr (List.mem_cons_of_mem r h2)

theorem mem_mergeRows (old new : List Row) (x : Row) (hx : x ∈ mergeRows old new) :
    x ∈ old ∨ x ∈ new := by
  have hperm : List.Perm (mergeRows old new) ((old ++ new).foldl mergeInsert []) :=
    List.perm_insertionSort rowLE _
  have hmem := hperm.mem_iff.mp hx
  rcases mem_foldl_mergeInsert _ [] x hmem with h | h
  · simp at h
  · exact List.mem_append.mp h

theorem fillRows_lookup_not_mem (names : List String) (m : String) (hm : m ∉ names)
    (lk : List (String × ℚ)) (rows : List Row) :
    ∀ x ∈ fillRows names lk rows, ∃ r ∈ rows, alookup m x.values = alookup m r.values := by
  induction rows generalizing lk with
  | nil => intro x hx; simp [fillRows] at hx
  | cons r rs ih =>
    intro x hx
    rcases List.mem_cons.mp hx with rfl | hx2
    · refine ⟨r, List.mem_cons_self r rs, ?_⟩
      simpa [fillRow] using (fillFold_preserve names m hm (r, lk)).1
    · obtain ⟨r2, hr2, he⟩ := ih _ x hx2
      exact ⟨r2, List.mem_cons_of_mem r hr2, he⟩

theorem fillRows_keysOf (names : List String) (lk : List (String × ℚ)) (rows : List Row) :
    keysOf (fillRows names lk rows) = keysOf rows :=
  fillRows_map_created_at names lk rows

theorem mergeRows_left_absorb (old new : List Row)
    (hsub : ∀ t, t ∈ keysOf old → t ∈ keysOf new) :
    mergeRows old new = mergeRows [] new := by
  apply sorted_ext _ _ (keysOf_mergeRows_pairwise_lt old new)
    (keysOf_mergeRows_pairwise_lt [] new)
  intro t
  rw [findRow_mergeRows, findRow_mergeRows]
  cases hn : lastWith t new with
  | some v => rfl
  | none =>
    have ho : lastWith t old = none := by
      cases ho2 : lastWith t old with
      | none => rfl
      | some v =>
        have hmem : t ∈ keysOf old := (lastWith_isSome_iff t old).mp (by simp [ho2])
        have hmem2 := (lastWith_isSome_iff t new).mpr (hsub t hmem)
        rw [hn] at hmem2
        simp at hmem2
    rw [ho, lastWith_nil]

theorem findSome?_isSome_of_mem (l : List Row) (f : Row → Option ℚ) (x : Row)
    (hx : x ∈ l) (hf : (f x).isSome) : (l.findSome? f).isSome := by
  have hex : ∃ y ∈ l, (f y).isSome := ⟨x, hx, hf⟩
  simpa using hex

theorem mem_take_of_getElem? (l : List Row) (i j : Nat) (x : Row) (hj : j < i)
    (hx : l[j]? = some x) : x ∈ l.take i := by
  induction l generalizing i j with
  | nil => simp at hx
  | cons a as ih =>
    cases j with
    | zero =>
      rw [List.getElem?_cons_zero] at hx
      cases i with
      | zero => omega
      | succ i =>
        rw [List.take_succ_cons]
        have hax : some a = some x := by simpa using hx
        exact (Option.some.inj hax) ▸ List.mem_cons_self a _
    | succ j =>
      rw [List.getElem?_cons_succ] at hx
      cases i with
      | zero => omega
      | succ i =>
        rw [List.take_succ_cons]
        exact List.mem_cons_of_mem a (ih i j (Nat.lt_of_succ_lt_succ hj) hx)

theorem getElem?_of_mem_take (l : List Row) (i : Nat) (x : Row) (hx : x ∈ l.take i) :
    ∃ j, j < i ∧ l[j]? = some x := by
  induction l generalizing i with
  | nil => simp at hx
  | cons a as ih =>
    cases i with
    | zero => simp at hx
    | succ i =>
      rw [List.take_succ_cons] at hx
      rcases List.mem_cons.mp hx with rfl | h2
      · exact ⟨0, Nat.succ_pos i, by simp⟩
      · obtain ⟨j, hj, hjx⟩ := ih i h2
        exact ⟨j + 1, Nat.succ_lt_succ hj, by simpa using hjx⟩

theorem getElem?_of_mem (l : List Row) (x : Row) (hx : x ∈ l) :
    ∃ i : Nat, l[i]? = some x := by
  induction l with
  | nil => simp at hx
  | cons a as ih =>
    rcases List.mem_cons.mp hx with rfl | h2
    · exact ⟨0, by simp⟩
    · obtain ⟨i, hi⟩ := ih h2
      exact ⟨i + 1, by simpa using hi⟩

theorem lastRealBefore_eq_none (m : String) (rows : List Row) (i : Nat)
    (h : ∀ j, j < i → ∀ r, rows[j]? = some r → alookup m r.values = none) :
    lastRealBefore m rows i = none := by
  unfold lastRealBefore
  rw [List.findSome?_eq_none_iff]
  intro x hx
  obtain ⟨j, hj, hjx⟩ := getElem?_of_mem_take rows i x (List.mem_reverse.mp hx)
  exact h j hj x hjx

theorem lastRealBefore_isSome (m : String) (rows : List Row) (i j : Nat) (hj : j < i)
    (r : Row) (hr : rows[j]? = some r) (hreal : (alookup m r.values).isSome) :
    (lastRealBefore m rows i).isSome := by
  unfold lastRealBefore
  exact findSome?_isSome_of_mem _ _ r
    (List.mem_reverse.mpr (mem_take_of_getElem? rows i j r hj hr)) hreal

/-- C2: forward-fill. For any state of the stateful TCPing pipeline, any
monitor in the resulting monitor set, and any row index at or after the
first merged row holding a real aggregate for that monitor (witnessed by
index `j ≤ i`), the output row's value for that monitor is its own real
merged aggregate when it has one, and otherwise the value of the nearest
preceding merged row that had a real aggregate (`lastRealBefore`). -/
theorem forward_fill_property (prior : List String) (currentData : List Row)
    (raw : List RawPoint) (m : String) (hm : m ∈ namesAfter prior raw) (i j : Nat)
    (hji : j ≤ i) (r0 : Row)
    (hj : (mergeRows currentData (transform raw))[j]? = some r0)
    (hreal : (alookup m r0.values).isSome) :
    ((processTcping prior currentData raw)[i]?).map (fun r => alookup m r.values) =
      ((mergeRows currentData (transform raw))[i]?).map (fun r =>
        (alookup m r.values).or
          (lastRealBefore m (mergeRows currentData (transform raw)) i)) := by
  have hnd : (namesAfter prior raw).Nodup := dedupFirst_nodup _
  unfold processTcping setTcpingData
  rw [fillRows_lookup _ hnd m hm]
  cases hi : (mergeRows currentData (transform raw))[i]? with
  | none => rfl
  | some ri =>
    simp only [Option.map_some']
    congr 1
    have hsome : ((alookup m ri.values).or
        (lastRealBefore m (mergeRows currentData (transform raw)) i)).isSome := by
      rcases Nat.lt_or_ge j i with hlt | hge
      · have := lastRealBefore_isSome m _ i j hlt r0 hj hreal
        cases h1 : alookup m ri.values <;>
          cases h2 : lastRealBefore m (mergeRows currentData (transform raw)) i <;>
          simp_all [Option.or]
      · have hij : j = i := Nat.le_antisymm hji hge
        subst hij
        have hri : ri = r0 := Option.some.inj (hi.symm.trans hj)
        subst hri
        cases h1 : alookup m ri.values <;> simp_all [Option.or]
    cases h1 : (alookup m ri.values).or
        (lastRealBefore m (mergeRows currentData (transform raw)) i) with
    | none => rw [h1] at hsome; simp at hsome
    | some v => rfl

/-- C3: retroactive back-fill. If the monitor has no real aggregate in any
merged row up to and including index `i`, but has a first real value `v`
somewhere in the merged data, then the output row at index `i` carries `v`,
which reaches it through the precomputed `firstAvailable` lookup that seeds
the fill pass. -/
theorem back_fill_property (prior : List String) (currentData : List Row)
    (raw : List RawPoint) (m : String) (hm : m ∈ namesAfter prior raw) (i : Nat)
    (hbefore : ∀ j, j ≤ i → ∀ r,
      (mergeRows currentData (transform raw))[j]? = some r →
        alookup m r.values = none)
    (v : ℚ) (hv : firstRealValue m (mergeRows currentData (transform raw)) = some v)
    (ri : Row) (hi : (processTcping prior currentData raw)[i]? = some ri) :
    alookup m ri.values = some v := by
  have hnd : (namesAfter prior raw).Nodup := dedupFirst_nodup _
  unfold processTcping setTcpingData at hi
  have heq := fillRows_lookup (namesAfter prior raw) hnd m hm
    (firstAvailable (namesAfter prior raw) (mergeRows currentData (transform raw)))
    (mergeRows currentData (transform raw)) i
  rw [hi] at heq
  cases hc : (mergeRows currentData (transform raw))[i]? with
  | none => rw [hc] at heq; simp at heq
  | some rc =>
    rw [hc] at heq
    simp only [Option.map_some'] at heq
    have hown : alookup m rc.values = none := hbefore i (Nat.le_refl i) rc hc
    have hbef : lastRealBefore m (mergeRows currentData (transform raw)) i = none :=
      lastRealBefore_eq_none m _ i
        (fun j hji r hr => hbefore j (Nat.le_of_lt hji) r hr)
    have hfa : alookup m (firstAvailable (namesAfter prior raw)
        (mergeRows currentData (transform raw))) = some v := by
      rw [firstAvailable_lookup, if_pos hm, hv]
    rw [hown, hbef, hfa] at heq
    exact Option.some.inj heq

/-- C8: fill totality. Every monitor of the monitor set that has at least
one real value somewhere in the merged data ends up with a defined value in
every output row of the pipeline. -/
theorem fill_totality (prior : List String) (currentData : List Row)
    (raw : List RawPoint) (m : String) (hm : m ∈ namesAfter prior raw)
    (hex : (firstRealValue m (mergeRows currentData (transform raw))).isSome) :
    ∀ r ∈ processTcping prior currentData raw, (alookup m r.values).isSome := by
  intro r hr
  obtain ⟨i, hi⟩ := getElem?_of_mem _ r hr
  have hnd : (namesAfter prior raw).Nodup := dedupFirst_nodup _
  unfold processTcping setTcpingData at hi
  have heq := fillRows_lookup (namesAfter prior raw) hnd m hm
    (firstAvailable (namesAfter prior raw) (mergeRows currentData (transform raw)))
    (mergeRows currentData (transform raw)) i
  rw [hi] at heq
  cases hc : (mergeRows currentData (transform raw))[i]? with
  | none => rw [hc] at heq; simp at heq
  | some rc =>
    rw [hc] at heq
    simp only [Option.map_some'] at heq
    have hfa : (alookup m (firstAvailable (namesAfter prior raw)
        (mergeRows currentData (transform raw)))).isSome := by
      rw [firstAvailable_lookup, if_pos hm]
      exact hex
    have heq2 := Option.some.inj heq
    rw [heq2]
    cases h1 : alookup m rc.values <;>
      cases h2 : lastRealBefore m (mergeRows currentData (transform raw)) i <;>
      simp_all [Option.or]

/-- C4 (amended): the row timestamps of every array produced by the client
merge/sort/fill pass are strictly increasing. (The equal-spacing half of the
original claim is refuted by `c4_not_equally_spaced`: only slots that carry
data exist as rows, so consecutive timestamps may differ by more than one
resample interval.) -/
theorem processTcping_timestamps_strictly_increasing (prior : List String)
    (currentData : List Row) (raw : List RawPoint) :
    (keysOf (processTcping prior currentData raw)).Pairwise (· < ·) := by
  unfold processTcping setTcpingData
  rw [fillRows_keysOf]
  exact keysOf_mergeRows_pairwise_lt _ _

/-- C4 (counterexample): a response whose only two buckets are two resample
intervals apart (the bucket between them being empty of samples) yields
consecutive rows whose timestamps differ by 600000 ms, not by the 5-minute
resample interval of 300000 ms that the client requests; so the rows of a
query response are not always spaced by exactly the resample interval. -/
theorem c4_not_equally_spaced :
    ¬ List.Chain' (fun a b => b.created_at - a.created_at = 300000)
      (fetchAndProcessTcpingData
        [{ monitor_name := "M", avg_delay := 1, created_at := 0 },
         { monitor_name := "M", avg_delay := 2, created_at := 600000 }]) := by
  intro h
  have he : fetchAndProcessTcpingData
      [{ monitor_name := "M", avg_delay := 1, created_at := 0 },
       { monitor_name := "M", avg_delay := 2, created_at := 600000 }] =
      [{ created_at := 0, values := [("M", 1)] },
       { created_at := 600000, values := [("M", 2)] }] := by
    with_unfolding_all rfl
  rw [he] at h
  have hd := (List.chain'_cons.mp h).1
  exact absurd hd (by decide)

/-- C5: overlap de-duplication. The merged data set holds exactly one row
per distinct timestamp (timestamps are deduplicated and are exactly those
of the held and fetched rows together), and for a timestamp occurring in the
newly fetched rows the merged data holds the newly fetched row — the last
one fetched with that timestamp — in place of any previously held row. -/
theorem merge_dedup_by_timestamp (currentData newChartData : List Row) (t : Nat)
    (r : Row) (hr : lastWith t newChartData = some r) :
    (keysOf (mergeRows currentData newChartData)).Nodup ∧
    findRow t (mergeRows currentData newChartData) = some r ∧
    (∀ u, u ∈ keysOf (mergeRows currentData newChartData) ↔
      u ∈ keysOf currentData ∨ u ∈ keysOf newChartData) := by
  refine ⟨keysOf_mergeRows_nodup _ _, ?_, fun u => mem_keysOf_mergeRows _ _ u⟩
  rw [findRow_mergeRows, hr]
  rfl

/-- C5 (witness): a re-poll returning a row with the timestamp already held
replaces the held row in the merged data. -/
theorem merge_dedup_by_timestamp_witness :
    lastWith 5 [{ created_at := 5, values := [("A", 2)] }] =
      some { created_at := 5, values := [("A", 2)] } ∧
    findRow 5 (mergeRows [{ created_at := 5, values := [("A", 1)] }]
        [{ created_at := 5, values := [("A", 2)] }]) =
      some { created_at := 5, values := [("A", 2)] } := by
  have h : lastWith 5 [{ created_at := 5, values := [("A", 2)] }] =
      some { created_at := 5, values := [("A", 2)] } := by with_unfolding_all rfl
  exact ⟨h, (merge_dedup_by_timestamp [{ created_at := 5, values := [("A", 1)] }]
    [{ created_at := 5, values := [("A", 2)] }] 5
    { created_at := 5, values := [("A", 2)] } h).2.1⟩

/-- C6: no fabrication. A monitor that contributes no data point to the
fetched response neither enters the monitor-name set nor appears as a key
in any row produced by the stateless pipeline. -/
theorem no_fabrication (raw : List RawPoint) (m : String)
    (hm : ∀ p ∈ raw, p.monitor_name ≠ m) :
    m ∉ namesAfter [] raw ∧
    ∀ r ∈ fetchAndProcessTcpingData raw, alookup m r.values = none := by
  have hnot : m ∉ namesAfter [] raw := by
    intro hmem
    unfold namesAfter at hmem
    have hmem2 := (mem_dedupFirst m _).mp hmem
    rw [List.nil_append] at hmem2
    obtain ⟨p, hp, hpm⟩ := List.mem_map.mp hmem2
    exact hm p hp hpm
  refine ⟨hnot, ?_⟩
  intro r hr
  unfold fetchAndProcessTcpingData setTcpingData at hr
  obtain ⟨r2, hr2, he⟩ := fillRows_lookup_not_mem _ m hnot _ _ r hr
  rw [he]
  rcases mem_mergeRows [] (transform raw) r2 hr2 with h | h
  · simp at h
  · exact transform_lookup_none raw m hm r2 h

/-- C6 (witness): a monitor absent from the response is absent from the
output of the pipeline. -/
theorem no_fabrication_witness :
    (∀ p ∈ ([{ monitor_name := "A", avg_delay := 1, created_at := 0 }] :
        List RawPoint), p.monitor_name ≠ "B") ∧
    ("B" ∉ namesAfter [] [{ monitor_name := "A", avg_delay := 1, created_at := 0 }] ∧
      ∀ r ∈ fetchAndProcessTcpingData
          [{ monitor_name := "A", avg_delay := 1, created_at := 0 }],
        alookup "B" r.values = none) := by
  have h : ∀ p ∈ ([{ monitor_name := "A", avg_delay := 1, created_at := 0 }] :
      List RawPoint), p.monitor_name ≠ "B" := by
    intro p hp
    have hpe : p = { monitor_name := "A", avg_delay := 1, created_at := 0 } := by
      simpa using hp
    subst hpe
    decide
  exact ⟨h, no_fabrication _ "B" h⟩

/-- C7: idempotence of the raw-to-rows transform. Re-processing the same
raw response against the state left by its first processing (the monitor
names and rows the first round stored) returns exactly the rows of the
first round: the pipeline is a deterministic function of the raw response,
and a second identical response does not change the stored rows. -/
theorem processTcping_idempotent (raw : List RawPoint) :
    processTcping (namesAfter [] raw) (processTcping [] [] raw) raw =
      processTcping [] [] raw := by
  unfold processTcping
  have hnames : namesAfter (namesAfter [] raw) raw = namesAfter [] raw := by
    unfold namesAfter
    have hsub : ∀ a ∈ raw.map (fun p => p.monitor_name),
        a ∈ dedupFirst (([] : List String) ++ raw.map (fun p => p.monitor_name)) := by
      intro a ha
      exact (mem_dedupFirst a _).mpr (by simpa using ha)
    rw [dedupFirst_append_of_subset _ _ hsub]
    exact dedupFirst_eq_self _ (dedupFirst_nodup _)
  rw [hnames]
  unfold setTcpingData
  have hkeys : ∀ t,
      t ∈ keysOf (fillRows (namesAfter [] raw)
        (firstAvailable (namesAfter [] raw) (mergeRows [] (transform raw)))
        (mergeRows [] (transform raw))) →
      t ∈ keysOf (transform raw) := by
    intro t ht
    rw [fillRows_keysOf] at ht
    rcases (mem_keysOf_mergeRows [] (transform raw) t).mp ht with h | h
    · simp [keysOf] at h
    · exact h
  rw [mergeRows_left_absorb _ (transform raw) hkeys]

/-- C1 (counterexample): running the specification's worked scenario
through the spec-modelled Resampler and the client pipeline yields exactly
one row, not the two rows the scenario sentence promises: no monitor has a
sample in `[10:05, 10:10)`, the Resampler synthesizes no empty slot
(spec section 4.1), and the row axis holds only slots that carry data
(spec section 4.2 step 1), so no `10:05` row exists to be forward-filled. -/
theorem c1_scenario_not_two_rows : ¬ scenarioOutput.length = 2 := by
  have h : scenarioOutput.length = 1 := by with_unfolding_all rfl
  omega

/-- C1 (amended): for the scenario input the query returns exactly one row,
timestamp `10:00` with values `{A: 25, B: 15}`, and each bucket value is
the arithmetic mean of exactly that monitor's samples with timestamp in
`[bucket_start, bucket_start + interval)`. -/
theorem c1_scenario_rows :
    scenarioOutput = [{ created_at := 36000, values := [("A", 25), ("B", 15)] }] ∧
    resample 300 36000 36600
        (scenarioSamples.filter (fun s => decide (s.monitor_id = "A"))) =
      [(36000, (20 + 30) / 2)] ∧
    resample 300 36000 36600
        (scenarioSamples.filter (fun s => decide (s.monitor_id = "B"))) =
      [(36000, 15)] := by
  refine ⟨?_, ?_, ?_⟩ <;> with_unfolding_all rfl

/-- Sample two-monitor response used as concrete input by witnesses:
monitor `A` has a value only in the first row, monitor `B` only in the
second. -/
def sampleRaw : List RawPoint :=
  [ { monitor_name := "A", avg_delay := 20, created_at := 0 }
  , { monitor_name := "B", avg_delay := 7, created_at := 300 } ]

/-- C2 (witness): in the processed sample response, monitor `A` has no real
aggregate in the second row, and the output row carries the nearest
preceding real aggregate. -/
theorem forward_fill_property_witness :
    (mergeRows [] (transform sampleRaw))[0]? =
      some { created_at := 0, values := [("A", 20)] } ∧
    ((processTcping [] [] sampleRaw)[1]?).map (fun r => alookup "A" r.values) =
      ((mergeRows [] (transform sampleRaw))[1]?).map (fun r =>
        (alookup "A" r.values).or
          (lastRealBefore "A" (mergeRows [] (transform sampleRaw)) 1)) := by
  have hm : "A" ∈ namesAfter [] sampleRaw :=
    of_decide_eq_true (by with_unfolding_all rfl)
  have hj : (mergeRows [] (transform sampleRaw))[0]? =
      some { created_at := 0, values := [("A", 20)] } := by with_unfolding_all rfl
  have hreal :
      (alookup "A" ({ created_at := 0, values := [("A", 20)] } : Row).values).isSome := by
    with_unfolding_all rfl
  exact ⟨hj, forward_fill_property [] [] sampleRaw "A" hm 1 0 (by omega) _ hj hreal⟩

/-- C3 (witness): in the processed sample response, monitor `B` has no real
aggregate in the first row, and the output's first row carries monitor `B`'s
first real value `7` by retroactive back-fill. -/
theorem back_fill_property_witness :
    firstRealValue "B" (mergeRows [] (transform sampleRaw)) = some 7 ∧
    alookup "B" ({ created_at := 0, values := [("A", 20), ("B", 7)] } : Row).values =
      some 7 := by
  have hm : "B" ∈ namesAfter [] sampleRaw :=
    of_decide_eq_true (by with_unfolding_all rfl)
  have hv : firstRealValue "B" (mergeRows [] (transform sampleRaw)) = some 7 := by
    with_unfolding_all rfl
  have hi : (processTcping [] [] sampleRaw)[0]? =
      some { created_at := 0, values := [("A", 20), ("B", 7)] } := by
    with_unfolding_all rfl
  have hbefore : ∀ j, j ≤ 0 → ∀ r,
      (mergeRows [] (transform sampleRaw))[j]? = some r →
        alookup "B" r.values = none := by
    intro j hj r hr
    have hj0 : j = 0 := Nat.le_zero.mp hj
    subst hj0
    have he : (mergeRows [] (transform sampleRaw))[0]? =
        some { created_at := 0, values := [("A", 20)] } := by with_unfolding_all rfl
    have hre : ({ created_at := 0, values := [("A", 20)] } : Row) = r :=
      Option.some.inj (he.symm.trans hr)
    rw [← hre]
    with_unfolding_all rfl
  exact ⟨hv, back_fill_property [] [] sampleRaw "B" hm 0 hbefore 7 hv _ hi⟩

/-- C8 (witness): monitor `B` has a real value somewhere in the merged
sample data, so every output row gives it a defined value. -/
theorem fill_totality_witness :
    (firstRealValue "B" (mergeRows [] (transform sampleRaw))).isSome ∧
    ∀ r ∈ processTcping [] [] sampleRaw, (alookup "B" r.values).isSome := by
  have hm : "B" ∈ namesAfter [] sampleRaw :=
    of_decide_eq_true (by with_unfolding_all rfl)
  have hex : (firstRealValue "B" (mergeRows [] (transform sampleRaw))).isSome := by
    with_unfolding_all rfl
  exact ⟨hex, fill_totality [] [] sampleRaw "B" hm hex⟩

/-! Lemmas about `chunk`. -/

theorem chunk_nil {α : Type} (size : Nat) : chunk ([] : List α) size = [] := by
  unfold chunk
  have h0 : (List.length ([] : List α) + size - 1) / size = 0 := by
    rcases Nat.eq_zero_or_pos size with rfl | h
    · simp
    · rw [List.length_nil, Nat.zero_add]
      exact Nat.div_eq_of_lt (by omega)
  rw [h0]
  rfl

theorem chunk_step {α : Type} (arr : List α) (size : Nat) (hs : 1 ≤ size)
    (hne : arr ≠ []) :
    chunk arr size = arr.take size :: chunk (arr.drop size) size := by
  unfold chunk
  have hlen : 1 ≤ arr.length := List.length_pos.mpr hne
  have hcount : (arr.length + size - 1) / size =
      ((arr.drop size).length + size - 1) / size + 1 := by
    rw [List.length_drop]
    rcases le_or_lt size arr.length with h | h
    · rw [show arr.length - size + size - 1 = arr.length - 1 by omega,
        show arr.length + size - 1 = (arr.length - 1) + size by omega,
        Nat.add_div_right _ (by omega)]
    · rw [show arr.length - size = 0 by omega,
        show arr.length + size - 1 = (arr.length - 1) + size by omega,
        Nat.add_div_right _ (by omega),
        Nat.div_eq_of_lt (show arr.length - 1 < size by omega),
        Nat.div_eq_of_lt (show 0 + size - 1 < size by omega)]
  rw [hcount, List.range_succ_eq_map, List.map_cons]
  congr 1
  · simp
  · rw [List.map_map]
    apply List.map_congr_left
    intro i _
    simp only [Function.comp]
    rw [List.drop_drop]
    congr 2
    rw [Nat.succ_mul]
    omega

theorem chunk_flatten {α : Type} (size : Nat) (hs : 1 ≤ size) (arr : List α) :
    (chunk arr size).flatten = arr := by
  suffices hgen : ∀ (n : Nat) (l : List α), l.length ≤ n →
      (chunk l size).flatten = l by
    exact hgen arr.length arr (Nat.le_refl _)
  intro n
  induction n with
  | zero =>
    intro l hl
    have hnil : l = [] := List.length_eq_zero.mp (Nat.le_zero.mp hl)
    subst hnil
    rw [chunk_nil]
    rfl
  | succ n ih =>
    intro l hl
    rcases eq_or_ne l [] with rfl | hne
    · rw [chunk_nil]; rfl
    · rw [chunk_step l size hs hne, List.flatten_cons,
        ih (l.drop size) (by
          rw [List.length_drop]
          have := List.length_pos.mpr hne
          omega),
        List.take_append_drop]

theorem chunk_full_sizes {α : Type} (size : Nat) (hs : 1 ≤ size) (arr : List α) :
    ∀ i c, i + 1 < (chunk arr size).length → (chunk arr size)[i]? = some c →
      c.length = size := by
  suffices hgen : ∀ (n : Nat) (l : List α), l.length ≤ n → ∀ i c,
      i + 1 < (chunk l size).length → (chunk l size)[i]? = some c →
      c.length = size by
    exact hgen arr.length arr (Nat.le_refl _)
  intro n
  induction n with
  | zero =>
    intro l hl i c hi _
    have hnil : l = [] := List.length_eq_zero.mp (Nat.le_zero.mp hl)
    subst hnil
    rw [chunk_nil] at hi
    simp at hi
  | succ n ih =>
    intro l hl i c hi hc
    rcases eq_or_ne l [] with rfl | hne
    · rw [chunk_nil] at hi
      simp at hi
    · rw [chunk_step l size hs hne] at hi hc
      cases i with
      | zero =>
        rw [List.getElem?_cons_zero] at hc
        have hcc := Option.some.inj hc
        subst hcc
        rw [List.length_cons] at hi
        have hlen2 : 0 < (chunk (l.drop size) size).length := by omega
        have hdne : l.drop size ≠ [] := by
          intro hd
          rw [hd, chunk_nil] at hlen2
          simp at hlen2
        have hsz : size < l.length := by
          by_contra hcon
          push_neg at hcon
          exact hdne (List.drop_eq_nil_of_le hcon)
        rw [List.length_take]
        omega
      | succ i =>
        rw [List.getElem?_cons_succ] at hc
        rw [List.length_cons] at hi
        exact ih (l.drop size)
          (by
            rw [List.length_drop]
            have := List.length_pos.mpr hne
            omega)
          i c (by omega) hc

theorem chunk_members_ne_nil {α : Type} (size : Nat) (hs : 1 ≤ size) (arr : List α) :
    ∀ c ∈ chunk arr size, c ≠ [] := by
  suffices hgen : ∀ (n : Nat) (l : List α), l.length ≤ n →
      ∀ c ∈ chunk l size, c ≠ [] by
    exact hgen arr.length arr (Nat.le_refl _)
  intro n
  induction n with
  | zero =>
    intro l hl c hc
    have hnil : l = [] := List.length_eq_zero.mp (Nat.le_zero.mp hl)
    subst hnil
    rw [chunk_nil] at hc
    simp at hc
  | succ n ih =>
    intro l hl c hc
    rcases eq_or_ne l [] with rfl | hne
    · rw [chunk_nil] at hc
      simp at hc
    · rw [chunk_step l size hs hne] at hc
      rcases List.mem_cons.mp hc with rfl | h2
      · have hlen : 1 ≤ l.length := List.length_pos.mpr hne
        intro hempty
        have hlt : (l.take size).length = 0 := by rw [hempty]; rfl
        rw [List.length_take] at hlt
        rcases Nat.le_total size l.length with hmin | hmin
        · rw [Nat.min_eq_left hmin] at hlt
          omega
        · rw [Nat.min_eq_right hmin] at hlt
          omega
      · exact ih (l.drop size)
          (by
            rw [List.length_drop]
            have := List.length_pos.mpr hne
            omega)
          c h2

/-- C9: chunk partitions its input. For every array and every size at least
one: concatenating the sub-arrays of `chunk arr size` in order yields
exactly `arr`; every sub-array except possibly the last has length exactly
`size`; and when `arr` is non-empty no sub-array is empty. -/
theorem chunk_partition_round_trip {α : Type} (arr : List α) (size : Nat)
    (hs : 1 ≤ size) :
    (chunk arr size).flatten = arr ∧
    (∀ i c, i + 1 < (chunk arr size).length → (chunk arr size)[i]? = some c →
      c.length = size) ∧
    (arr ≠ [] → ∀ c ∈ chunk arr size, c ≠ []) :=
  ⟨chunk_flatten size hs arr, chunk_full_sizes size hs arr,
    fun _ => chunk_members_ne_nil size hs arr⟩

/-- C9 (witness): chunking a five-element array by two. -/
theorem chunk_partition_round_trip_witness :
    (1 ≤ 2) ∧ (chunk [1, 2, 3, 4, 5] 2).flatten = [1, 2, 3, 4, 5] := by
  have h : (1 : Nat) ≤ 2 := by omega
  exact ⟨h, (chunk_partition_round_trip [1, 2, 3, 4, 5] 2 h).1⟩

/-- C10: zero-byte guard of `formatBytes`. For every decimals argument the
zero input returns the literal string `0 Bytes` from the guard branch; the
logarithm-based unit computation of the other branch is never reached for
zero input, so the `NaN` that `Math.log(0)` would propagate in JavaScript
cannot appear in the output. -/
theorem formatBytes_zero (decimals : Int) : formatBytes 0 decimals = "0 Bytes" := rfl

end VpsState
